import Mathlib

set_option maxHeartbeats 1000000

/-!
Verification development for the betting-analysis pipeline implemented in
src/analyzer/run_v5_3.py.

The script loads a table of sportsbook proposition offers, converts each
American-odds price to an implied probability, computes a per-proposition
cross-book median ("fair") probability, ranks offers by the edge
ev_pct = (fair_prob - book_prob) * 100, keeps the best offer per proposition,
filters a singles list, and greedily builds parlays from a candidate pool.

Modelling conventions:
- Floating-point arithmetic is idealised as exact rational arithmetic (ℚ).
- A price cell that survives the dropna on the price column is modelled as
  Option ℚ: some q when float(price) parses to q, none when parsing fails,
  mirroring the try/except in american_to_prob and in_band.
- NaN results (undefined probabilities, undefined edges) are Option.none.
- Rows dropped by df.dropna(subset=["player","market","selection","price","book"])
  are outside the model: the Offer type makes those fields mandatory.
- Uncaught Python exceptions are modelled as Except.error.
- pandas groupby(gcols) at the best-offer step uses the default dropna=True,
  so rows whose key tuple has a missing component are dropped there, while
  the median step uses groupby(gcols, dropna=False) and keeps them.
- The source orders the per-key best rows by the groupby key order; no
  property verified here depends on the relative order of distinct keys, so
  keys are enumerated in first-occurrence order.
-/

namespace RunV53

/-- The grouping tuple gcols = ["player","team","market","selection","line","kickoff_utc"]
from line 38 of run_v5_3.py.  player, market and selection are never missing after
the dropna on line 34; team, line and kickoff_utc may be missing (None). -/
structure PropKey where
  player : String
  team : Option String
  market : String
  selection : String
  line : Option ℚ
  kickoff_utc : Option String
deriving DecidableEq

/-- A key tuple has no missing component.  groupby with the default
dropna=True (line 50) keeps exactly the rows whose key satisfies this. -/
def PropKey.nonNull (k : PropKey) : Bool :=
  k.team.isSome && k.line.isSome && k.kickoff_utc.isSome

/-- One input row after the dropna of line 34: player, market, selection,
price and book are present; price is some q when the cell parses as a
number and none when it is an unparsable string. -/
structure Offer where
  game_id : String
  week : Option String
  player : String
  team : Option String
  market : String
  selection : String
  line : Option ℚ
  price : Option ℚ
  book : String
  kickoff_utc : Option String
deriving DecidableEq

/-- The proposition key of a row (line 38). -/
def Offer.key (o : Offer) : PropKey :=
  ⟨o.player, o.team, o.market, o.selection, o.line, o.kickoff_utc⟩

/-- Line 35: df["book"] = df["book"].astype(str).str.upper().str.strip(). -/
def normBook (o : Offer) : Offer :=
  { o with book := o.book.toUpper.trim }

/-- Lines 27-32:
def american_to_prob(o):
    try:
        o = float(o)
        return (-o)/(-o+100) if o<0 else 100/(o+100)
    except:
        return np.nan -/
def american_to_prob (v : Option ℚ) : Option ℚ :=
  match v with
  | some o => some (if o < 0 then (-o) / (-o + 100) else 100 / (o + 100))
  | none => none

/-- Lines 43-47:
def in_band(o):
    try:
        o = float(o)
        return (o >= -115) and (o <= 200)
    except: return False -/
def in_band (v : Option ℚ) : Bool :=
  match v with
  | some o => decide (-115 ≤ o) && decide (o ≤ 200)
  | none => false

/-- Insert into an ascending-sorted list of rationals. -/
def insertAsc (q : ℚ) : List ℚ → List ℚ
  | [] => [q]
  | x :: xs => if q ≤ x then q :: x :: xs else x :: insertAsc q xs

/-- Ascending insertion sort on rationals (the sort inside a median). -/
def sortAsc : List ℚ → List ℚ
  | [] => []
  | x :: xs => insertAsc x (sortAsc xs)

/-- Median of a list of defined values, as pandas computes it: sort, take
the middle element (odd length) or the mean of the two middle elements
(even length); empty list has no median. -/
def median (l : List ℚ) : Option ℚ :=
  let s := sortAsc l
  let n := s.length
  if n = 0 then none
  else if n % 2 = 1 then some (s.getD (n / 2) 0)
  else some ((s.getD (n / 2 - 1) 0 + s.getD (n / 2) 0) / 2)

/-- pandas median with skipna: undefined entries are dropped before the
median is taken; a group with no defined entry gets an undefined median. -/
def medianOpt (l : List (Option ℚ)) : Option ℚ :=
  median (l.filterMap id)

/-- The book_prob column restricted to the group of key k, in input order
(lines 36 and 39; the median groupby passes dropna=False so every row,
missing key components included, belongs to the group of its own key). -/
def groupBookProbs (rows : List Offer) (k : PropKey) : List (Option ℚ) :=
  (rows.filter (fun o => o.key = k)).map (fun o => american_to_prob o.price)

/-- One row of the merged frame after lines 36-48: book_prob from the price,
fair_prob the group median merged back on gcols, ev_pct their gap times 100
(NaN when either side is NaN, as in pandas subtraction), in_band from the
price. -/
structure ARow where
  offer : Offer
  book_prob : Option ℚ
  fair_prob : Option ℚ
  ev_pct : Option ℚ
  in_band : Bool
deriving DecidableEq

/-- Annotation of a single row (lines 36-48). -/
def annotateOffer (rows : List Offer) (o : Offer) : ARow :=
  let bp := american_to_prob o.price
  let fair := medianOpt (groupBookProbs rows o.key)
  { offer := o
    book_prob := bp
    fair_prob := fair
    ev_pct :=
      match fair, bp with
      | some f, some b => some ((f - b) * 100)
      | _, _ => none
    in_band := in_band o.price }

/-- The annotated frame: lines 36-48 applied to every row. -/
def annotate (rows : List Offer) : List ARow :=
  rows.map (annotateOffer rows)

/-- The rows of a group paired with their defined ev_pct values, in order;
rows with undefined ev_pct are skipped, as idxmax skips NaN. -/
def definedEv (g : List ARow) : List (ℚ × ARow) :=
  g.filterMap (fun r => r.ev_pct.map (fun e => (e, r)))

/-- First maximum of a nonempty list of (value, row) pairs: the earliest
pair whose value no later pair strictly exceeds — the first-index-of-max
convention of Series.idxmax. -/
def argmaxFirst : List (ℚ × ARow) → Option (ℚ × ARow)
  | [] => none
  | p :: ps =>
    match argmaxFirst ps with
    | none => some p
    | some q => if q.1 > p.1 then some q else some p

/-- Deduplication keeping the first occurrence of each element, in order. -/
def dedupFirst {α : Type} [DecidableEq α] : List α → List α
  | [] => []
  | a :: as => a :: (dedupFirst as).filter (fun b => b ≠ a)

/-- Per-key best-row selection over a fixed universe of rows: for each key,
the first row attaining the maximal defined ev_pct of its group.  A group
whose ev_pct values are all undefined makes the selection fail: on such a
group the source's idxmax / .loc chain raises an uncaught exception
(ValueError from argmax of an empty sequence, or KeyError from .loc on the
NaN label, depending on the pandas version), aborting the run. -/
def collectBest (rows : List ARow) : List PropKey → Except String (List ARow)
  | [] => Except.ok []
  | k :: ks =>
    match argmaxFirst (definedEv (rows.filter (fun r => r.offer.key = k))) with
    | none => Except.error "attempt to get argmax of an empty sequence"
    | some p =>
      match collectBest rows ks with
      | Except.ok bs => Except.ok (p.2 :: bs)
      | Except.error e => Except.error e

/-- Lines 50-51:
idx = df.groupby(gcols)["ev_pct"].idxmax()
best = df.loc[idx].copy()
The groupby here uses the default dropna=True: rows whose key tuple has a
missing component are dropped before grouping. -/
def bestRows (rows : List ARow) : Except String (List ARow) :=
  let vr := rows.filter (fun r => r.offer.key.nonNull)
  collectBest vr (dedupFirst (vr.map (fun r => r.offer.key)))

/-- Comparison used by the descending ev_pct sorts: a may come before b.
NaN compares below every defined value (na_position is last). -/
def evGE (a b : ARow) : Bool :=
  match a.ev_pct, b.ev_pct with
  | some x, some y => decide (y ≤ x)
  | some _, none => true
  | none, _ => false

/-- Insert into a descending-by-ev_pct sorted list, undefined values last. -/
def insertDesc (r : ARow) : List ARow → List ARow
  | [] => [r]
  | x :: xs => if evGE r x then r :: x :: xs else x :: insertDesc r xs

/-- sort_values("ev_pct", ascending=False): descending by ev_pct with
undefined values placed last. -/
def sortDesc : List ARow → List ARow
  | [] => []
  | x :: xs => insertDesc x (sortDesc xs)

/-- The filter comparison ev_pct >= t: False on NaN, as in pandas. -/
def evGeQ (r : ARow) (t : ℚ) : Bool :=
  match r.ev_pct with
  | some e => decide (t ≤ e)
  | none => false

/-- Lines 53-54:
singles = best[(best["in_band"]) & (best["ev_pct"]>=2.0)].copy()
singles = singles.sort_values(["ev_pct"], ascending=False).head(6) -/
def singlesOf (best : List ARow) : List ARow :=
  (sortDesc (best.filter (fun r => r.in_band && evGeQ r 2))).take 6

/-- Line 56:
best_pool = best[best["ev_pct"]>=1.0].sort_values("ev_pct", ascending=False).head(40)
(line 57 tags each row with game_key = str(game_id); the model reads
game_id directly, which is already a string). -/
def poolOf (best : List ARow) : List ARow :=
  (sortDesc (best.filter (fun r => evGeQ r 1))).take 40

/-- Loop body of build_parlay (lines 59-65), with the accumulated chosen
rows and the set of used game keys made explicit.  The length test runs
after the append, exactly as in the source, so a target of 0 is never hit. -/
def buildParlayGo (n : Nat) : List ARow → List ARow → List String → List ARow
  | [], chosen, _ => chosen
  | r :: rs, chosen, seen =>
    if r.offer.game_id ∈ seen then buildParlayGo n rs chosen seen
    else
      let chosen2 := chosen ++ [r]
      if chosen2.length = n then chosen2
      else buildParlayGo n rs chosen2 (r.offer.game_id :: seen)

/-- Lines 59-65:
def build_parlay(pool, n):
    chosen, seen = [], set()
    for _, r in pool.iterrows():
        if r["game_key"] in seen: continue
        chosen.append(r); seen.add(r["game_key"])
        if len(chosen)==n: break
    return pd.DataFrame(chosen) -/
def build_parlay (pool : List ARow) (n : Nat) : List ARow :=
  buildParlayGo n pool [] []

/-- Python's built-in round: round half to even, on exact rationals. -/
def pyRound (q : ℚ) : ℤ :=
  let f := ⌊q⌋
  let r := q - f
  if r < 1 / 2 then f
  else if 1 / 2 < r then f + 1
  else if f % 2 = 0 then f else f + 1

/-- Lines 67-70:
def prob_to_american(p):
    if p<=0 or p>=1: return None
    dec = 1/p
    return round((dec-1)*100) if dec>=2 else round(-100/(dec-1)) -/
def prob_to_american (p : ℚ) : Option ℤ :=
  if p ≤ 0 ∨ 1 ≤ p then none
  else
    let dec := 1 / p
    if 2 ≤ dec then some (pyRound ((dec - 1) * 100))
    else some (pyRound (-100 / (dec - 1)))

/-- All entries defined, collecting the values; none as soon as one entry
is undefined. -/
def allSome : List (Option ℚ) → Option (List ℚ)
  | [] => some []
  | none :: _ => none
  | some q :: rest => (allSome rest).map (fun l => q :: l)

/-- Lines 72-75:
def parlay_metrics(legs):
    if legs.empty: return (None, None)
    ip = float(np.prod(legs["book_prob"].astype(float)))
    return ip, prob_to_american(ip)
If any leg's book_prob is NaN the product is NaN and round(NaN) inside
prob_to_american raises ValueError, aborting the run; that path is modelled
as Except.error.  (Pool legs always have a defined book_prob, so the run
never takes it.) -/
def parlay_metrics (legs : List ARow) : Except String (Option ℚ × Option ℤ) :=
  match legs with
  | [] => Except.ok (none, none)
  | _ :: _ =>
    match allSome (legs.map (fun r => r.book_prob)) with
    | some ps => Except.ok (some ps.prod, prob_to_american ps.prod)
    | none => Except.error "cannot convert float NaN to integer"

/-- The computed artefacts of one run (lines 50-80). -/
structure RunOutput where
  best : List ARow
  singles : List ARow
  pool : List ARow
  parlay3 : List ARow
  parlay4 : List ARow
  metrics3 : Option ℚ × Option ℤ
  metrics4 : Option ℚ × Option ℤ
deriving DecidableEq

/-- The edge-computation pipeline of run_v5_3.py on an already loaded,
schema-checked, dropna-filtered list of rows (lines 35-80). -/
def runPipeline (rows : List Offer) : Except String RunOutput := do
  let ann := annotate (rows.map normBook)
  let best ← bestRows ann
  let singles := singlesOf best
  let pool := poolOf best
  let p3 := build_parlay pool 3
  let p4 := build_parlay (pool.drop 3) 4
  let m3 ← parlay_metrics p3
  let m4 ← parlay_metrics p4
  Except.ok ⟨best, singles, pool, p3, p4, m3, m4⟩

/-- The Odds Converter as the spec states it (section 4.1): if price < 0,
probability = (-price)/(-price+100); if price >= 0, probability =
100/(price+100); unparsable input maps to the undefined sentinel. -/
def american_to_prob_spec (v : Option ℚ) : Option ℚ :=
  match v with
  | some price => if price < 0 then some ((-price) / (-price + 100)) else some (100 / (price + 100))
  | none => none

/-- The ordering guarantee a descending ev_pct sort gives between a row and
any row placed after it: whenever the later row has a defined ev_pct, the
earlier row also has one, at least as large.  In particular an undefined
ev_pct never precedes a defined one. -/
def evAfter (a b : ARow) : Prop :=
  ∀ y, b.ev_pct = some y → ∃ x, a.ev_pct = some x ∧ y ≤ x

/-- The relationship collectBest establishes between a key and the row it
selects for that key. -/
def SelectedFor (rows : List ARow) (k : PropKey) (r : ARow) : Prop :=
  ∃ e, argmaxFirst (definedEv (rows.filter (fun r2 => r2.offer.key = k))) = some (e, r)

/-- Adjacent ev_pct values strictly decreasing (the "strictly descending"
reading of the singles ordering); an undefined value never counts as
strictly above anything. -/
def strictDescEvB : List ARow → Bool
  | [] => true
  | [_] => true
  | a :: b :: rest =>
    (match a.ev_pct, b.ev_pct with
     | some x, some y => decide (y < x)
     | _, _ => false) && strictDescEvB (b :: rest)

/-- Concrete offers used to instantiate the theorems on explicit inputs. -/
def mkOffer (gid pl : String) (tm : Option String) (pr : Option ℚ) (bk : String) : Offer :=
  { game_id := gid, week := some "1", player := pl, team := tm, market := "pass_yds",
    selection := "over", line := some 250, price := pr, book := bk,
    kickoff_utc := some "2025-09-07T17:00Z" }

/-- One fully keyed offer at price +100. -/
def o100 : Offer := mkOffer "g1" "A" (some "T") (some 100) "B1"

def rows100 : List Offer := [o100]

def row100 : ARow := annotateOffer rows100 o100

/-- An offer whose team field is missing: its key tuple has a null
component, so the best-offer groupby (default dropna) drops it. -/
def dsNullTeam : List Offer := [mkOffer "g1" "A" none (some 100) "B1"]

/-- An offer with a fully defined key but an unparsable price: its whole
group has undefined ev_pct. -/
def oBad : Offer := mkOffer "g1" "A" (some "T") none "B1"

def dsBad : List Offer := [oBad]

def rowBad : ARow := annotateOffer dsBad oBad

/-- Two propositions, each quoted at +100 and +150 by two books: both best
offers end up with ev_pct exactly 5, so the singles list has a tie. -/
def dsTie : List Offer :=
  [mkOffer "g1" "A" (some "T") (some 100) "B1",
   mkOffer "g1" "A" (some "T") (some 150) "B2",
   mkOffer "g2" "B" (some "T") (some 100) "B1",
   mkOffer "g2" "B" (some "T") (some 150) "B2"]

/-- The best rows of dsTie, in first-occurrence key order. -/
def bestTie : List ARow :=
  [annotateOffer dsTie (mkOffer "g1" "A" (some "T") (some 150) "B2"),
   annotateOffer dsTie (mkOffer "g2" "B" (some "T") (some 150) "B2")]

/-! ### Helper lemmas about the list operations -/

theorem evAfter_of_evGE (a b : ARow) (h : evGE a b = true) : evAfter a b := by
  intro y hy
  unfold evGE at h
  cases hx : a.ev_pct with
  | none => rw [hx, hy] at h; simp at h
  | some x => exact ⟨x, rfl, by rw [hx, hy] at h; simpa using h⟩

theorem evAfter_of_not_evGE (a b : ARow) (h : evGE b a = false) : evAfter a b := by
  intro y hy
  unfold evGE at h
  cases hx : a.ev_pct with
  | none => rw [hy, hx] at h; simp at h
  | some x =>
    rw [hy, hx] at h
    simp at h
    exact ⟨x, rfl, le_of_lt h⟩

theorem evAfter_trans (a b c : ARow) (h1 : evAfter a b) (h2 : evAfter b c) :
    evAfter a c := by
  intro y hy
  obtain ⟨x, hx, hyx⟩ := h2 y hy
  obtain ⟨w, hw, hxw⟩ := h1 x hx
  exact ⟨w, hw, le_trans hyx hxw⟩

theorem mem_insertDesc (a r : ARow) (l : List ARow) :
    a ∈ insertDesc r l ↔ a = r ∨ a ∈ l := by
  induction l with
  | nil => simp [insertDesc]
  | cons x xs ih =>
    by_cases hge : evGE r x = true
    · simp [insertDesc, hge, List.mem_cons]
    · simp [insertDesc, hge, List.mem_cons, ih]
      tauto

theorem mem_sortDesc (a : ARow) (l : List ARow) :
    a ∈ sortDesc l ↔ a ∈ l := by
  induction l with
  | nil => simp [sortDesc]
  | cons x xs ih => simp [sortDesc, mem_insertDesc, ih, List.mem_cons]

theorem pairwise_insertDesc (r : ARow) (l : List ARow)
    (h : l.Pairwise evAfter) : (insertDesc r l).Pairwise evAfter := by
  induction l with
  | nil => simp [insertDesc]
  | cons x xs ih =>
    rw [List.pairwise_cons] at h
    obtain ⟨hx, hxs⟩ := h
    by_cases hge : evGE r x = true
    · rw [insertDesc, if_pos hge]
      refine List.Pairwise.cons ?_ (List.Pairwise.cons hx hxs)
      intro z hz
      rcases List.mem_cons.mp hz with rfl | hz2
      · exact evAfter_of_evGE _ _ hge
      · exact evAfter_trans _ _ _ (evAfter_of_evGE _ _ hge) (hx z hz2)
    · rw [insertDesc, if_neg hge]
      refine List.Pairwise.cons ?_ (ih hxs)
      intro z hz
      rcases (mem_insertDesc _ _ _).mp hz with rfl | hz2
      · exact evAfter_of_not_evGE _ _ (by simpa using hge)
      · exact hx z hz2

theorem pairwise_sortDesc (l : List ARow) : (sortDesc l).Pairwise evAfter := by
  induction l with
  | nil => simp [sortDesc]
  | cons x xs ih => exact pairwise_insertDesc x (sortDesc xs) ih

theorem mem_dedupFirst {α : Type} [DecidableEq α] (a : α) (l : List α) :
    a ∈ dedupFirst l ↔ a ∈ l := by
  induction l with
  | nil => simp [dedupFirst]
  | cons x xs ih =>
    simp only [dedupFirst, List.mem_cons, List.mem_filter]
    by_cases hax : a = x
    · simp [hax]
    · simp [hax, ih]

theorem nodup_dedupFirst {α : Type} [DecidableEq α] (l : List α) :
    (dedupFirst l).Nodup := by
  induction l with
  | nil => simp [dedupFirst]
  | cons x xs ih =>
    rw [dedupFirst]
    refine List.Pairwise.cons ?_ (List.Nodup.filter _ ih)
    intro b hb
    have h2 := (List.mem_filter.mp hb).2
    simp at h2
    exact fun hxb => h2 hxb.symm

theorem mem_definedEv (g : List ARow) (e : ℚ) (r : ARow) :
    (e, r) ∈ definedEv g ↔ r ∈ g ∧ r.ev_pct = some e := by
  unfold definedEv
  rw [List.mem_filterMap]
  constructor
  · rintro ⟨a, ha, hmap⟩
    cases hev : a.ev_pct with
    | none => rw [hev] at hmap; exact absurd hmap (by simp)
    | some x =>
      rw [hev] at hmap
      have hpair : (x, a) = (e, r) := by simpa using hmap
      have hx : x = e := congrArg Prod.fst hpair
      have hr : a = r := congrArg Prod.snd hpair
      subst hx; subst hr
      exact ⟨ha, hev⟩
  · rintro ⟨hr, hev⟩
    exact ⟨r, hr, by rw [hev]; rfl⟩

theorem definedEv_eq_nil (g : List ARow) :
    definedEv g = [] ↔ ∀ r ∈ g, r.ev_pct = none := by
  induction g with
  | nil => simp [definedEv]
  | cons x xs ih =>
    unfold definedEv at ih ⊢
    rw [List.filterMap_cons]
    cases hx : x.ev_pct with
    | none => simp [hx, ih]
    | some e => simp [hx]

theorem argmaxFirst_eq_none (l : List (ℚ × ARow)) :
    argmaxFirst l = none ↔ l = [] := by
  cases l with
  | nil => simp [argmaxFirst]
  | cons x xs =>
    rw [argmaxFirst]
    cases hxs : argmaxFirst xs with
    | none => simp
    | some q =>
      by_cases hq : q.1 > x.1
      · simp [hq]
      · simp [hq]

theorem argmaxFirst_split (l : List (ℚ × ARow)) (p : ℚ × ARow)
    (h : argmaxFirst l = some p) :
    ∃ l₁ l₂, l = l₁ ++ p :: l₂ ∧ (∀ q ∈ l₁, q.1 < p.1) ∧ (∀ q ∈ l₂, q.1 ≤ p.1) := by
  induction l generalizing p with
  | nil => simp [argmaxFirst] at h
  | cons x xs ih =>
    rw [argmaxFirst] at h
    cases hxs : argmaxFirst xs with
    | none =>
      simp only [hxs] at h
      have hnil : xs = [] := (argmaxFirst_eq_none xs).mp hxs
      cases h
      exact ⟨[], [], by simp [hnil], by simp, by simp [hnil]⟩
    | some q =>
      simp only [hxs] at h
      by_cases hq : q.1 > x.1
      · rw [if_pos hq] at h
        cases h
        obtain ⟨l₁, l₂, heq, h₁, h₂⟩ := ih p hxs
        exact ⟨x :: l₁, l₂, by rw [heq]; rfl, by
          intro z hz
          rcases List.mem_cons.mp hz with rfl | hz2
          · exact hq
          · exact h₁ z hz2, h₂⟩
      · rw [if_neg hq] at h
        cases h
        obtain ⟨l₁, l₂, heq, h₁, h₂⟩ := ih q hxs
        refine ⟨[], xs, rfl, by simp, ?_⟩
        intro z hz
        rw [heq] at hz
        push_neg at hq
        rcases List.mem_append.mp hz with hz1 | hz2
        · exact le_trans (le_of_lt (h₁ z hz1)) hq
        · rcases List.mem_cons.mp hz2 with rfl | hz3
          · exact hq
          · exact le_trans (h₂ z hz3) hq

theorem argmaxFirst_mem (l : List (ℚ × ARow)) (p : ℚ × ARow)
    (h : argmaxFirst l = some p) : p ∈ l := by
  obtain ⟨l₁, l₂, heq, _, _⟩ := argmaxFirst_split l p h
  rw [heq]
  simp

theorem collectBest_ok (rows : List ARow) (ks : List PropKey) (bs : List ARow)
    (h : collectBest rows ks = Except.ok bs) :
    List.Forall₂ (SelectedFor rows) ks bs := by
  induction ks generalizing bs with
  | nil =>
    rw [collectBest] at h
    cases h
    exact List.Forall₂.nil
  | cons k ks ih =>
    rw [collectBest] at h
    cases hm : argmaxFirst (definedEv (rows.filter (fun r2 => r2.offer.key = k))) with
    | none =>
      simp only [hm] at h
      exact Except.noConfusion h
    | some p =>
      simp only [hm] at h
      cases hc : collectBest rows ks with
      | error e => rw [hc] at h; cases h
      | ok bs2 =>
        rw [hc] at h
        cases h
        exact List.Forall₂.cons ⟨p.1, by rw [hm]⟩ (ih bs2 hc)

theorem collectBest_error (rows : List ARow) (ks : List PropKey) (k : PropKey)
    (hk : k ∈ ks)
    (hnone : argmaxFirst (definedEv (rows.filter (fun r2 => r2.offer.key = k))) = none) :
    ∃ e, collectBest rows ks = Except.error e := by
  induction ks with
  | nil => simp at hk
  | cons k0 ks ih =>
    rcases List.mem_cons.mp hk with rfl | hk2
    · exact ⟨_, by rw [collectBest, hnone]⟩
    · rw [collectBest]
      cases hm : argmaxFirst (definedEv (rows.filter (fun r2 => r2.offer.key = k0))) with
      | none => exact ⟨_, rfl⟩
      | some p =>
        obtain ⟨e, he⟩ := ih hk2
        rw [he]
        exact ⟨e, rfl⟩

theorem SelectedFor.key_eq (rows : List ARow) (k : PropKey) (r : ARow)
    (h : SelectedFor rows k r) : r.offer.key = k := by
  obtain ⟨e, he⟩ := h
  have hmem := argmaxFirst_mem _ _ he
  have hflt := ((mem_definedEv _ _ _).mp hmem).1
  simpa using (List.mem_filter.mp hflt).2

theorem SelectedFor.mem (rows : List ARow) (k : PropKey) (r : ARow)
    (h : SelectedFor rows k r) : r ∈ rows := by
  obtain ⟨e, he⟩ := h
  have hmem := argmaxFirst_mem _ _ he
  have hflt := ((mem_definedEv _ _ _).mp hmem).1
  exact List.mem_filter.mp hflt |>.1

theorem forall₂_filter_length_zero (rows : List ARow) (ks : List PropKey)
    (bs : List ARow) (k : PropKey) (h : List.Forall₂ (SelectedFor rows) ks bs)
    (hk : k ∉ ks) :
    (bs.filter (fun r => r.offer.key = k)).length = 0 := by
  induction h with
  | nil => rfl
  | @cons k0 r0 ks0 bs0 hr htail ih =>
    rw [List.filter_cons]
    have hkey := SelectedFor.key_eq _ _ _ hr
    have hne : ¬ (r0.offer.key = k) := by
      rw [hkey]
      intro hq
      exact hk (hq ▸ List.mem_cons_self k0 ks0)
    rw [if_neg (by simp [hne])]
    exact ih (fun hx => hk (List.mem_cons_of_mem _ hx))

theorem forall₂_filter_length_one (rows : List ARow) (ks : List PropKey)
    (bs : List ARow) (k : PropKey) (h : List.Forall₂ (SelectedFor rows) ks bs)
    (hnd : ks.Nodup) (hk : k ∈ ks) :
    (bs.filter (fun r => r.offer.key = k)).length = 1 := by
  induction h with
  | nil => simp at hk
  | @cons k0 r0 ks0 bs0 hr htail ih =>
    rw [List.filter_cons]
    have hkey := SelectedFor.key_eq _ _ _ hr
    rw [List.nodup_cons] at hnd
    rcases List.mem_cons.mp hk with rfl | hk2
    · rw [if_pos (by simp [hkey])]
      simp [forall₂_filter_length_zero rows ks0 bs0 k htail hnd.1]
    · have hne : ¬ (r0.offer.key = k) := by
        rw [hkey]
        intro hq
        exact hnd.1 (hq ▸ hk2)
      rw [if_neg (by simp [hne])]
      exact ih hnd.2 hk2

theorem forall₂_mem_right (rows : List ARow) (ks : List PropKey) (bs : List ARow)
    (h : List.Forall₂ (SelectedFor rows) ks bs) (r : ARow) (hr : r ∈ bs) :
    ∃ k, k ∈ ks ∧ SelectedFor rows k r := by
  induction h with
  | nil => simp at hr
  | @cons k0 r0 ks0 bs0 hr0 htail ih =>
    rcases List.mem_cons.mp hr with rfl | hr2
    · exact ⟨k0, List.mem_cons_self _ _, hr0⟩
    · obtain ⟨k, hk, hsel⟩ := ih hr2
      exact ⟨k, List.mem_cons_of_mem _ hk, hsel⟩

/-! ### Lemmas about the annotation stage -/

theorem annotateOffer_offer (rows : List Offer) (o : Offer) :
    (annotateOffer rows o).offer = o := rfl

theorem annotateOffer_in_band (rows : List Offer) (o : Offer) :
    (annotateOffer rows o).in_band = in_band o.price := rfl

theorem mem_annotate (rows : List Offer) (r : ARow) :
    r ∈ annotate rows ↔ ∃ o, o ∈ rows ∧ annotateOffer rows o = r := by
  unfold annotate
  rw [List.mem_map]

theorem annotate_in_band (rows : List Offer) (r : ARow) (h : r ∈ annotate rows) :
    r.in_band = in_band r.offer.price := by
  obtain ⟨o, _, rfl⟩ := (mem_annotate rows r).mp h
  rfl

/-- Restricting to rows with a fully defined key and then to one fully
defined key k is the same as restricting to k directly: nullness of the
key is a function of the key. -/
theorem filter_nonNull_filter_key (l : List ARow) (k : PropKey)
    (hk : k.nonNull = true) :
    ((l.filter (fun r => r.offer.key.nonNull)).filter (fun r => r.offer.key = k))
      = l.filter (fun r => r.offer.key = k) := by
  rw [List.filter_filter]
  apply List.filter_congr
  intro r _
  by_cases h : r.offer.key = k
  · simp [h, hk]
  · simp [h]

/-! ### Lemmas about the parlay builder -/

theorem buildParlayGo_decomp (n : Nat) (pool : List ARow) :
    ∀ chosen seen, ∃ s, buildParlayGo n pool chosen seen = chosen ++ s ∧ s.Sublist pool := by
  induction pool with
  | nil =>
    intro chosen seen
    exact ⟨[], by simp [buildParlayGo], List.Sublist.refl []⟩
  | cons r rs ih =>
    intro chosen seen
    rw [buildParlayGo]
    by_cases hseen : r.offer.game_id ∈ seen
    · rw [if_pos hseen]
      obtain ⟨s, hs, hsub⟩ := ih chosen seen
      exact ⟨s, hs, hsub.cons r⟩
    · rw [if_neg hseen]
      by_cases hlen : (chosen ++ [r]).length = n
      · rw [if_pos hlen]
        exact ⟨[r], rfl, by simp⟩
      · rw [if_neg hlen]
        obtain ⟨s, hs, hsub⟩ := ih (chosen ++ [r]) (r.offer.game_id :: seen)
        exact ⟨r :: s, by rw [hs, List.append_assoc]; rfl, hsub.cons₂ r⟩

theorem buildParlayGo_length (n : Nat) (pool : List ARow) :
    ∀ chosen seen, chosen.length < n → (buildParlayGo n pool chosen seen).length ≤ n := by
  induction pool with
  | nil =>
    intro chosen seen h
    rw [buildParlayGo]
    omega
  | cons r rs ih =>
    intro chosen seen h
    rw [buildParlayGo]
    by_cases hseen : r.offer.game_id ∈ seen
    · rw [if_pos hseen]
      exact ih chosen seen h
    · rw [if_neg hseen]
      by_cases hlen : (chosen ++ [r]).length = n
      · rw [if_pos hlen]
        omega
      · rw [if_neg hlen]
        apply ih
        rw [List.length_append] at hlen ⊢
        simp only [List.length_cons, List.length_nil] at hlen ⊢
        omega

theorem buildParlayGo_games (n : Nat) (pool : List ARow) :
    ∀ chosen seen,
      (∀ c ∈ chosen, c.offer.game_id ∈ seen) →
      chosen.Pairwise (fun a b => a.offer.game_id ≠ b.offer.game_id) →
      (buildParlayGo n pool chosen seen).Pairwise
        (fun a b => a.offer.game_id ≠ b.offer.game_id) := by
  induction pool with
  | nil =>
    intro chosen seen _ hp
    rw [buildParlayGo]
    exact hp
  | cons r rs ih =>
    intro chosen seen hsub hp
    rw [buildParlayGo]
    by_cases hseen : r.offer.game_id ∈ seen
    · rw [if_pos hseen]
      exact ih chosen seen hsub hp
    · rw [if_neg hseen]
      have hp2 : (chosen ++ [r]).Pairwise (fun a b => a.offer.game_id ≠ b.offer.game_id) := by
        rw [List.pairwise_append]
        refine ⟨hp, by simp, ?_⟩
        intro a ha b hb
        rw [List.mem_singleton] at hb
        subst hb
        intro heq
        exact hseen (heq ▸ hsub a ha)
      by_cases hlen : (chosen ++ [r]).length = n
      · rw [if_pos hlen]
        exact hp2
      · rw [if_neg hlen]
        apply ih _ _ ?_ hp2
        intro c hc
        rcases List.mem_append.mp hc with h1 | h2
        · exact List.mem_cons_of_mem _ (hsub c h1)
        · rw [List.mem_singleton] at h2
          subst h2
          exact List.mem_cons_self _ _

/-! ### Median and rounding lemmas -/

theorem median_singleton (q : ℚ) : median [q] = some q := by
  simp [median, sortAsc, insertAsc]

theorem medianOpt_filter (l : List (Option ℚ)) :
    medianOpt l = medianOpt (l.filter (fun x => x.isSome)) := by
  unfold medianOpt
  congr 1
  induction l with
  | nil => rfl
  | cons x xs ih =>
    cases x with
    | none => simpa [List.filterMap_cons, List.filter_cons] using ih
    | some q => simpa [List.filterMap_cons, List.filter_cons] using ih

theorem pyRound_abs_sub_le (q : ℚ) : |(pyRound q : ℚ) - q| ≤ 1 / 2 := by
  unfold pyRound
  have h0 : (⌊q⌋ : ℚ) ≤ q := Int.floor_le q
  have h1 : q < ⌊q⌋ + 1 := Int.lt_floor_add_one q
  by_cases hc1 : q - ⌊q⌋ < 1 / 2
  · rw [if_pos hc1, abs_le]
    constructor <;> push_cast <;> linarith
  · rw [if_neg hc1]
    by_cases hc2 : 1 / 2 < q - ⌊q⌋
    · rw [if_pos hc2, abs_le]
      constructor <;> push_cast <;> linarith
    · rw [if_neg hc2]
      by_cases hc3 : ⌊q⌋ % 2 = 0
      · rw [if_pos hc3, abs_le]
        constructor <;> push_cast <;> linarith
      · rw [if_neg hc3, abs_le]
        constructor <;> push_cast <;> linarith

theorem pyRound_ge_100 (a : ℚ) (h : 100 ≤ a) : 100 ≤ pyRound a := by
  have hb := pyRound_abs_sub_le a
  rw [abs_le] at hb
  have h99 : (99 : ℚ) < (pyRound a : ℚ) := by linarith
  have h99z : (99 : ℤ) < pyRound a := by exact_mod_cast h99
  omega

theorem pyRound_le_neg100 (a : ℚ) (h : a ≤ -100) : pyRound a ≤ -100 := by
  have hb := pyRound_abs_sub_le a
  rw [abs_le] at hb
  have h99 : (pyRound a : ℚ) < -99 := by linarith
  have h99z : pyRound a < (-99 : ℤ) := by exact_mod_cast h99
  omega

theorem ratio_diff_le (x y : ℚ) (hx : 100 ≤ x) (hy : 100 ≤ y) (h : |x - y| ≤ 1 / 2) :
    |x / (x + 100) - y / (y + 100)| ≤ 1 / 800 := by
  have hx0 : (0 : ℚ) < x + 100 := by linarith
  have hy0 : (0 : ℚ) < y + 100 := by linarith
  have key : x / (x + 100) - y / (y + 100) = 100 * (x - y) / ((x + 100) * (y + 100)) := by
    field_simp
    ring
  rw [key, abs_div, abs_of_pos (mul_pos hx0 hy0)]
  have habs : |x - y| * 100 ≤ 50 := by linarith [abs_nonneg (x - y)]
  have hnum : |100 * (x - y)| ≤ 50 := by
    rw [abs_mul, abs_of_pos (by norm_num : (0:ℚ) < 100)]
    linarith
  have hden : (40000 : ℚ) ≤ (x + 100) * (y + 100) := by nlinarith
  calc |100 * (x - y)| / ((x + 100) * (y + 100)) ≤ 50 / 40000 := by
        apply div_le_div₀ (by norm_num) hnum (by norm_num) hden
    _ = 1 / 800 := by norm_num

theorem invratio_diff_le (x y : ℚ) (hx : 100 ≤ x) (hy : 100 ≤ y) (h : |x - y| ≤ 1 / 2) :
    |100 / (x + 100) - 100 / (y + 100)| ≤ 1 / 800 := by
  have hx0 : (0 : ℚ) < x + 100 := by linarith
  have hy0 : (0 : ℚ) < y + 100 := by linarith
  have key : 100 / (x + 100) - 100 / (y + 100) = 100 * (y - x) / ((x + 100) * (y + 100)) := by
    field_simp
    ring
  rw [key, abs_div, abs_of_pos (mul_pos hx0 hy0)]
  have hyx : |y - x| ≤ 1 / 2 := by
    rw [abs_sub_comm]
    exact h
  have hnum : |100 * (y - x)| ≤ 50 := by
    rw [abs_mul, abs_of_pos (by norm_num : (0:ℚ) < 100)]
    linarith
  have hden : (40000 : ℚ) ≤ (x + 100) * (y + 100) := by nlinarith
  calc |100 * (y - x)| / ((x + 100) * (y + 100)) ≤ 50 / 40000 := by
        apply div_le_div₀ (by norm_num) hnum (by norm_num) hden
    _ = 1 / 800 := by norm_num

theorem annotateOffer_fair (rows : List Offer) (o : Offer) :
    (annotateOffer rows o).fair_prob = medianOpt (groupBookProbs rows o.key) := rfl

theorem annotateOffer_book (rows : List Offer) (o : Offer) :
    (annotateOffer rows o).book_prob = american_to_prob o.price := rfl

theorem annotateOffer_ev (rows : List Offer) (o : Offer) (f b : ℚ)
    (hf : medianOpt (groupBookProbs rows o.key) = some f)
    (hb : american_to_prob o.price = some b) :
    (annotateOffer rows o).ev_pct = some ((f - b) * 100) := by
  unfold annotateOffer
  simp only [hf, hb]

/-! ### Claim theorems -/

/-- C3, counterexample.  The claim asserts that every price that parses as
a number yields a probability strictly between 0 and 1; the price 0 parses
as a number, yet the Odds Converter maps it to probability exactly 1. -/
theorem C3_counterexample :
    american_to_prob (some 0) = some 1 ∧
    ¬ (∃ q, american_to_prob (some 0) = some q ∧ 0 < q ∧ q < 1) := by
  refine ⟨by with_unfolding_all decide, ?_⟩
  rintro ⟨q, hq, _, h1⟩
  rw [show american_to_prob (some 0) = some 1 from by with_unfolding_all decide] at hq
  rw [← Option.some.inj hq] at h1
  exact lt_irrefl 1 h1

/-- C3, amended.  For every price that parses to a nonzero number the Odds
Converter's output lies strictly between 0 and 1 (at price 0 the output is
exactly 1, the boundary); price -100 and price +100 both map to 1/2. -/
theorem C3_odds_converter_range :
    american_to_prob (some (-100)) = some (1 / 2) ∧
    american_to_prob (some 100) = some (1 / 2) ∧
    ∀ p : ℚ, p ≠ 0 → ∃ q, american_to_prob (some p) = some q ∧ 0 < q ∧ q < 1 := by
  refine ⟨by with_unfolding_all decide, by with_unfolding_all decide, ?_⟩
  intro p hp
  refine ⟨if p < 0 then (-p) / (-p + 100) else 100 / (p + 100), rfl, ?_, ?_⟩
  · split_ifs with h
    · apply div_pos (by linarith) (by linarith)
    · have hpos : 0 < p := lt_of_le_of_ne (not_lt.mp h) (Ne.symm hp)
      apply div_pos (by norm_num) (by linarith)
  · split_ifs with h
    · rw [div_lt_one (by linarith)]
      linarith
    · have hpos : 0 < p := lt_of_le_of_ne (not_lt.mp h) (Ne.symm hp)
      rw [div_lt_one (by linarith)]
      linarith

theorem C3_odds_converter_range_witness :
    ∃ q, american_to_prob (some 50) = some q ∧ 0 < q ∧ q < 1 :=
  C3_odds_converter_range.2.2 50 (by norm_num)

/-- C4, confirmed.  The Odds Converter computes exactly the spec formula
((-p)/(-p+100) for p < 0, 100/(p+100) for p >= 0), returns the undefined
sentinel instead of raising on unparsable input, and the sentinel is
ignored downstream: the median drops undefined entries, the threshold
comparisons reject rows with undefined ev_pct, and the descending sort
never places an undefined ev_pct ahead of a defined one. -/
theorem C4_formula_and_sentinel :
    (∀ v : Option ℚ, american_to_prob v = american_to_prob_spec v) ∧
    american_to_prob none = none ∧
    (∀ l : List (Option ℚ), medianOpt l = medianOpt (l.filter (fun x => x.isSome))) ∧
    (∀ r : ARow, ∀ t : ℚ, r.ev_pct = none → evGeQ r t = false) ∧
    (∀ a b : ARow, a.ev_pct = none → evGE a b = false) := by
  refine ⟨?_, rfl, medianOpt_filter, ?_, ?_⟩
  · intro v
    cases v with
    | none => rfl
    | some p =>
      show some (if p < 0 then (-p) / (-p + 100) else 100 / (p + 100))
          = if p < 0 then some ((-p) / (-p + 100)) else some (100 / (p + 100))
      split_ifs with h <;> rfl
  · intro r t h
    unfold evGeQ
    rw [h]
  · intro a b h
    unfold evGE
    rw [h]

theorem C4_formula_and_sentinel_witness :
    american_to_prob (some (-120)) = american_to_prob_spec (some (-120)) ∧
    evGeQ rowBad 2 = false ∧
    evGE rowBad row100 = false :=
  ⟨C4_formula_and_sentinel.1 (some (-120)),
   C4_formula_and_sentinel.2.2.2.1 rowBad 2 (by with_unfolding_all decide),
   C4_formula_and_sentinel.2.2.2.2 rowBad row100 (by with_unfolding_all decide)⟩

/-- C9, confirmed.  If the group of an annotated offer contains exactly one
defined book probability b and the offer itself carries it, then the
consensus fair_prob merged onto the offer is b and its ev_pct is 0. -/
theorem C9_single_offer_zero_edge (rows : List Offer) (o : Offer) (b : ℚ)
    (ho : o ∈ rows)
    (hb : american_to_prob o.price = some b)
    (hgrp : (groupBookProbs rows o.key).filterMap id = [b]) :
    (annotateOffer rows o).fair_prob = some b ∧
    (annotateOffer rows o).ev_pct = some 0 := by
  have hfair : medianOpt (groupBookProbs rows o.key) = some b := by
    unfold medianOpt
    rw [show (groupBookProbs rows o.key).filterMap id = [b] from hgrp]
    exact median_singleton b
  constructor
  · rw [annotateOffer_fair]
    exact hfair
  · rw [annotateOffer_ev rows o b b hfair hb]
    norm_num

theorem C9_single_offer_zero_edge_witness :
    (annotateOffer rows100 o100).fair_prob = some (1 / 2) ∧
    (annotateOffer rows100 o100).ev_pct = some 0 :=
  C9_single_offer_zero_edge rows100 o100 (1 / 2)
    (by with_unfolding_all decide) (by with_unfolding_all decide) (by with_unfolding_all decide)

/-- C6, counterexample.  The claim quantifies over every target leg count
n; for n = 0 the source only tests len(chosen) == n after appending a leg,
so a nonempty pool yields one leg per distinct game instead of zero legs,
violating "the leg count is at most n". -/
theorem C6_counterexample :
    build_parlay [row100] 0 = [row100] ∧ ¬ (build_parlay [row100] 0).length ≤ 0 := by
  refine ⟨by with_unfolding_all decide, ?_⟩
  rw [show build_parlay [row100] 0 = [row100] from by with_unfolding_all decide]
  decide

/-- C6, amended.  For every candidate pool and every positive target leg
count n, the greedy first-fit scan returns legs that form a subsequence of
the pool (pool order preserved), contain at most n legs, and never repeat
a game identifier.  (For n = 0 the stop test, which runs only after a leg
is appended, never fires, so the scan instead returns one leg per distinct
game in the pool.) -/
theorem C6_parlay_builder (pool : List ARow) (n : Nat) (hn : 1 ≤ n) :
    (build_parlay pool n).Sublist pool ∧
    (build_parlay pool n).length ≤ n ∧
    (build_parlay pool n).Pairwise (fun a b => a.offer.game_id ≠ b.offer.game_id) := by
  refine ⟨?_, ?_, ?_⟩
  · obtain ⟨s, hs, hsub⟩ := buildParlayGo_decomp n pool [] []
    rw [build_parlay, hs]
    simpa using hsub
  · exact buildParlayGo_length n pool [] [] (by simpa using hn)
  · exact buildParlayGo_games n pool [] [] (by simp) (by simp)

theorem C6_parlay_builder_witness :
    (build_parlay [row100] 1).Sublist [row100] ∧
    (build_parlay [row100] 1).length ≤ 1 ∧
    (build_parlay [row100] 1).Pairwise (fun a b => a.offer.game_id ≠ b.offer.game_id) :=
  C6_parlay_builder [row100] 1 (by norm_num)

/-- C7, confirmed.  An empty leg set yields no defined probability or
price; a nonempty leg set with defined book probabilities ps yields
combined probability equal to the product of the legs' own book_prob
values, priced through prob_to_american; and prob_to_american implements
exactly the spec conversion: undefined for p ≤ 0 or p ≥ 1, otherwise
round((1/p - 1)·100) when the decimal odds 1/p are at least 2 and
round(-100/(1/p - 1)) when they are below 2. -/
theorem C7_parlay_metrics :
    parlay_metrics [] = Except.ok (none, none) ∧
    (∀ legs : List ARow, ∀ ps : List ℚ, legs ≠ [] →
      allSome (legs.map (fun r => r.book_prob)) = some ps →
      parlay_metrics legs = Except.ok (some ps.prod, prob_to_american ps.prod)) ∧
    (∀ p : ℚ, p ≤ 0 ∨ 1 ≤ p → prob_to_american p = none) ∧
    (∀ p : ℚ, 0 < p → p < 1 →
      prob_to_american p =
        some (if 2 ≤ 1 / p then pyRound ((1 / p - 1) * 100)
              else pyRound (-100 / (1 / p - 1)))) := by
  refine ⟨rfl, ?_, ?_, ?_⟩
  · intro legs ps hne hall
    cases legs with
    | nil => exact absurd rfl hne
    | cons l ls =>
      rw [parlay_metrics]
      simp only [hall]
  · intro p hp
    unfold prob_to_american
    rw [if_pos hp]
  · intro p h0 h1
    unfold prob_to_american
    rw [if_neg (by push_neg; exact ⟨h0, h1⟩)]
    show (if 2 ≤ 1 / p then some (pyRound ((1 / p - 1) * 100))
          else some (pyRound (-100 / (1 / p - 1)))) = _
    split_ifs <;> rfl

theorem C7_parlay_metrics_witness :
    parlay_metrics [row100] =
      Except.ok (some (List.prod [(1 : ℚ) / 2]), prob_to_american (List.prod [(1 : ℚ) / 2])) :=
  C7_parlay_metrics.2.1 [row100] [(1 : ℚ) / 2] (by simp) (by with_unfolding_all decide)

/-- Facts about the favourite-priced branch of prob_to_american: for
p in (0,1) with decimal odds 1/p at least 2, the returned price rounds
a = (1/p - 1)*100, a is at least 100, and converting a itself back through
the odds formula recovers p exactly. -/
theorem prob_to_american_pos_branch (p : ℚ) (h0 : 0 < p) (h1 : p < 1) (hdec : 2 ≤ 1 / p) :
    prob_to_american p = some (pyRound ((1 / p - 1) * 100)) ∧
    (100 : ℚ) ≤ (1 / p - 1) * 100 ∧
    100 / ((1 / p - 1) * 100 + 100) = p := by
  refine ⟨?_, by nlinarith, ?_⟩
  · unfold prob_to_american
    rw [if_neg (by push_neg; exact ⟨h0, h1⟩)]
    show (if 2 ≤ 1 / p then some (pyRound ((1 / p - 1) * 100))
          else some (pyRound (-100 / (1 / p - 1)))) = _
    rw [if_pos hdec]
  · have hp : p ≠ 0 := ne_of_gt h0
    have hd : (1 / p - 1) * 100 + 100 = 100 / p := by
      field_simp
      ring
    rw [hd, div_div_eq_mul_div]
    ring

/-- Facts about the underdog-priced branch of prob_to_american: for
p in (0,1) with decimal odds below 2, the returned price rounds
a = -100/(1/p - 1), a is at most -100, and converting a itself back
through the odds formula recovers p exactly. -/
theorem prob_to_american_neg_branch (p : ℚ) (h0 : 0 < p) (h1 : p < 1) (hdec : ¬ 2 ≤ 1 / p) :
    prob_to_american p = some (pyRound (-100 / (1 / p - 1))) ∧
    -100 / (1 / p - 1) ≤ (-100 : ℚ) ∧
    (-(-100 / (1 / p - 1))) / (-(-100 / (1 / p - 1)) + 100) = p := by
  have hinv1 : 1 < 1 / p := (one_lt_div h0).mpr h1
  have hinv2 : 1 / p < 2 := not_le.mp hdec
  set s := 1 / p - 1 with hs
  have hs0 : 0 < s := by rw [hs]; linarith
  have hs1 : s < 1 := by rw [hs]; linarith
  have hps : p * s = 1 - p := by
    rw [hs]
    field_simp
  refine ⟨?_, ?_, ?_⟩
  · unfold prob_to_american
    rw [if_neg (by push_neg; exact ⟨h0, h1⟩)]
    show (if 2 ≤ 1 / p then some (pyRound ((1 / p - 1) * 100))
          else some (pyRound (-100 / (1 / p - 1)))) = _
    rw [if_neg hdec]
  · have h100 : (100 : ℚ) ≤ 100 / s := by
      rw [le_div_iff hs0]
      linarith
    rw [neg_div]
    linarith
  · simp only [neg_div, neg_neg]
    have hcomb : 100 / s + 100 = (100 + 100 * s) / s := by
      rw [add_div]
      congr 1
      rw [mul_div_assoc, div_self hs0.ne', mul_one]
    have hden : (0 : ℚ) < 100 + 100 * s := by linarith
    have hkey : p * (100 + 100 * s) = 100 := by
      calc p * (100 + 100 * s) = 100 * p + 100 * (p * s) := by ring
        _ = 100 * p + 100 * (1 - p) := by rw [hps]
        _ = 100 := by ring
    rw [hcomb, div_div_eq_mul_div, div_mul_cancel₀ _ hs0.ne']
    rw [div_eq_iff hden.ne']
    linarith [hkey]

/-- C10, confirmed.  For every probability strictly between 0 and 1 the
price-conversion function returns a defined integer price of magnitude at
least 100, and feeding that price back into the Odds Converter is defined
and lands strictly inside (0,1). -/
theorem C10_price_conversion (p : ℚ) (h0 : 0 < p) (h1 : p < 1) :
    ∃ A : ℤ, prob_to_american p = some A ∧ 100 ≤ |A| ∧
      ∃ q : ℚ, american_to_prob (some (A : ℚ)) = some q ∧ 0 < q ∧ q < 1 := by
  by_cases hdec : 2 ≤ 1 / p
  · obtain ⟨heq, hge, _⟩ := prob_to_american_pos_branch p h0 h1 hdec
    set A := pyRound ((1 / p - 1) * 100) with hA
    have hA100 : (100 : ℤ) ≤ A := pyRound_ge_100 _ hge
    have hAq : (100 : ℚ) ≤ (A : ℚ) := by exact_mod_cast hA100
    refine ⟨A, heq, ?_, 100 / ((A : ℚ) + 100), ?_, ?_, ?_⟩
    · rw [abs_of_nonneg (by omega)]
      exact hA100
    · show some (if (A : ℚ) < 0 then (-(A : ℚ)) / (-(A : ℚ) + 100)
          else 100 / ((A : ℚ) + 100)) = _
      rw [if_neg (by linarith)]
    · apply div_pos (by norm_num) (by linarith)
    · rw [div_lt_one (by linarith)]
      linarith
  · obtain ⟨heq, hle, _⟩ := prob_to_american_neg_branch p h0 h1 hdec
    set A := pyRound (-100 / (1 / p - 1)) with hA
    have hA100 : A ≤ (-100 : ℤ) := pyRound_le_neg100 _ hle
    have hAq : (A : ℚ) ≤ -100 := by exact_mod_cast hA100
    refine ⟨A, heq, ?_, (-(A : ℚ)) / (-(A : ℚ) + 100), ?_, ?_, ?_⟩
    · rw [abs_of_nonpos (by omega)]
      omega
    · show some (if (A : ℚ) < 0 then (-(A : ℚ)) / (-(A : ℚ) + 100)
          else 100 / ((A : ℚ) + 100)) = _
      rw [if_pos (by linarith)]
    · apply div_pos (by linarith) (by linarith)
    · rw [div_lt_one (by linarith)]
      linarith

theorem C10_price_conversion_witness :
    ∃ A : ℤ, prob_to_american (1 / 2) = some A ∧ 100 ≤ |A| ∧
      ∃ q : ℚ, american_to_prob (some (A : ℚ)) = some q ∧ 0 < q ∧ q < 1 :=
  C10_price_conversion (1 / 2) (by norm_num) (by norm_num)

/-- C8, confirmed.  For every combined probability p strictly between 0
and 1, converting p to an American price and back through the Odds
Converter reproduces p up to the error of rounding the price to an
integer: the recovered probability differs from p by at most 1/800 (the
half-unit rounding error divided by the least possible denominators). -/
theorem C8_round_trip (p : ℚ) (h0 : 0 < p) (h1 : p < 1) :
    ∃ A : ℤ, ∃ q : ℚ, prob_to_american p = some A ∧
      american_to_prob (some (A : ℚ)) = some q ∧ |q - p| ≤ 1 / 800 := by
  by_cases hdec : 2 ≤ 1 / p
  · obtain ⟨heq, hge, hback⟩ := prob_to_american_pos_branch p h0 h1 hdec
    set a := (1 / p - 1) * 100 with ha
    set A := pyRound a with hA
    have hA100 : (100 : ℤ) ≤ A := pyRound_ge_100 _ hge
    have hAq : (100 : ℚ) ≤ (A : ℚ) := by exact_mod_cast hA100
    have habs : |(A : ℚ) - a| ≤ 1 / 2 := pyRound_abs_sub_le a
    refine ⟨A, 100 / ((A : ℚ) + 100), heq, ?_, ?_⟩
    · show some (if (A : ℚ) < 0 then (-(A : ℚ)) / (-(A : ℚ) + 100)
          else 100 / ((A : ℚ) + 100)) = _
      rw [if_neg (by linarith)]
    · have hd := invratio_diff_le (A : ℚ) a hAq hge habs
      rw [hback] at hd
      exact hd
  · obtain ⟨heq, hle, hback⟩ := prob_to_american_neg_branch p h0 h1 hdec
    set a := -100 / (1 / p - 1) with ha
    set A := pyRound a with hA
    have hA100 : A ≤ (-100 : ℤ) := pyRound_le_neg100 _ hle
    have hAq : (A : ℚ) ≤ -100 := by exact_mod_cast hA100
    have habs : |(A : ℚ) - a| ≤ 1 / 2 := pyRound_abs_sub_le a
    have habs2 : |(-(A : ℚ)) - (-a)| ≤ 1 / 2 := by
      rw [show (-(A : ℚ)) - (-a) = -((A : ℚ) - a) by ring, abs_neg]
      exact habs
    refine ⟨A, (-(A : ℚ)) / (-(A : ℚ) + 100), heq, ?_, ?_⟩
    · show some (if (A : ℚ) < 0 then (-(A : ℚ)) / (-(A : ℚ) + 100)
          else 100 / ((A : ℚ) + 100)) = _
      rw [if_pos (by linarith)]
    · have hd := ratio_diff_le (-(A : ℚ)) (-a) (by linarith) (by linarith) habs2
      rw [hback] at hd
      exact hd

theorem C8_round_trip_witness :
    ∃ A : ℤ, ∃ q : ℚ, prob_to_american (1 / 3) = some A ∧
      american_to_prob (some (A : ℚ)) = some q ∧ |q - (1 / 3 : ℚ)| ≤ 1 / 800 :=
  C8_round_trip (1 / 3) (by norm_num) (by norm_num)

/-- Every row emitted by the best-offer selection belongs to the annotated
frame and has a fully defined key. -/
theorem bestRows_subset (rows' bs : List ARow) (h : bestRows rows' = Except.ok bs) :
    ∀ r ∈ bs, r ∈ rows' ∧ r.offer.key.nonNull = true := by
  intro r hr
  simp only [bestRows] at h
  obtain ⟨k, hk, hsel⟩ := forall₂_mem_right _ _ _ (collectBest_ok _ _ _ h) r hr
  have hmem := SelectedFor.mem _ _ _ hsel
  have hflt := List.mem_filter.mp hmem
  exact ⟨hflt.1, by simpa using hflt.2⟩

/-- C5, counterexample.  On dsTie the singles list is [5, 5] in ev_pct:
two distinct propositions tie at the maximum edge, so the output is not
strictly descending by ev_pct, only weakly so. -/
theorem C5_counterexample :
    (runPipeline dsTie).map (fun o => o.singles.map (fun r => r.ev_pct))
      = Except.ok [some 5, some 5] ∧
    (runPipeline dsTie).map (fun o => strictDescEvB o.singles) = Except.ok false := by
  constructor
  · with_unfolding_all rfl
  · with_unfolding_all rfl

/-- C5, amended.  Singles rows come from the best-offer table, carry a
price that parses into [-115, 200] and a defined ev_pct of at least 2, the
list holds at most 6 rows, and it is weakly descending by ev_pct (ties
between distinct propositions make strict descent fail, as the
counterexample shows); undefined ev_pct never precedes a defined one. -/
theorem C5_singles_filter (rows : List Offer) (best : List ARow)
    (hb : bestRows (annotate rows) = Except.ok best) :
    (∀ r ∈ singlesOf best, r ∈ best ∧
      (∃ pr, r.offer.price = some pr ∧ -115 ≤ pr ∧ pr ≤ 200) ∧
      (∃ e, r.ev_pct = some e ∧ 2 ≤ e)) ∧
    (singlesOf best).length ≤ 6 ∧
    (singlesOf best).Pairwise evAfter := by
  unfold singlesOf
  refine ⟨?_, List.length_take_le 6 _, (pairwise_sortDesc _).sublist (List.take_sublist 6 _)⟩
  intro r hr
  have hr2 : r ∈ sortDesc (best.filter (fun r => r.in_band && evGeQ r 2)) :=
    (List.take_sublist 6 _).subset hr
  rw [mem_sortDesc] at hr2
  have hr3 := List.mem_filter.mp hr2
  have hrb : r ∈ best := hr3.1
  have hcond := hr3.2
  simp only [Bool.and_eq_true] at hcond
  refine ⟨hrb, ?_, ?_⟩
  · have hrann : r ∈ annotate rows := (bestRows_subset _ _ hb r hrb).1
    have hband : in_band r.offer.price = true := by
      rw [← annotate_in_band rows r hrann]
      exact hcond.1
    cases hpr : r.offer.price with
    | none =>
      rw [hpr] at hband
      exact absurd hband (by simp [in_band])
    | some pr =>
      rw [hpr] at hband
      unfold in_band at hband
      simp only [Bool.and_eq_true, decide_eq_true_eq] at hband
      exact ⟨pr, rfl, hband.1, hband.2⟩
  · have hge := hcond.2
    unfold evGeQ at hge
    cases hev : r.ev_pct with
    | none =>
      rw [hev] at hge
      exact absurd hge (by simp)
    | some e =>
      rw [hev] at hge
      simp only [decide_eq_true_eq] at hge
      exact ⟨e, rfl, hge⟩

theorem C5_singles_filter_witness :
    (∀ r ∈ singlesOf bestTie, r ∈ bestTie ∧
      (∃ pr, r.offer.price = some pr ∧ -115 ≤ pr ∧ pr ≤ 200) ∧
      (∃ e, r.ev_pct = some e ∧ 2 ≤ e)) ∧
    (singlesOf bestTie).length ≤ 6 ∧
    (singlesOf bestTie).Pairwise evAfter :=
  C5_singles_filter dsTie bestTie (by with_unfolding_all rfl)

/-- C2, counterexample.  dsBad holds one offer with a fully defined key
and an unparsable price, so its whole proposition group has undefined
ev_pct; the claim says such a group must not abort the run, but the run
aborts: the first-index-of-max over the all-undefined group raises (as
the source's idxmax / .loc chain does on an all-NaN group). -/
theorem C2_counterexample :
    runPipeline dsBad = Except.error "attempt to get argmax of an empty sequence" := by
  with_unfolding_all rfl

/-- C2, amended.  In every descending ev_pct sort an undefined ev_pct
sorts below all defined values, and best-offer selection never picks an
undefined ev_pct over a defined one (the first maximum is always taken
among the defined values); however a proposition group whose ev_pct
values are all undefined does abort the run with an uncaught error rather
than degrading. -/
theorem C2_undefined_lowest :
    (∀ l : List ARow, (sortDesc l).Pairwise evAfter) ∧
    (∀ g : List ARow, definedEv g ≠ [] →
      ∃ e r, argmaxFirst (definedEv g) = some (e, r) ∧ r.ev_pct = some e ∧ r ∈ g) ∧
    (∀ rows : List ARow, ∀ r0 : ARow, r0 ∈ rows → r0.offer.key.nonNull = true →
      (∀ r2 ∈ rows, r2.offer.key = r0.offer.key → r2.ev_pct = none) →
      ∃ e, bestRows rows = Except.error e) := by
  refine ⟨pairwise_sortDesc, ?_, ?_⟩
  · intro g hg
    cases hm : argmaxFirst (definedEv g) with
    | none => exact absurd ((argmaxFirst_eq_none _).mp hm) hg
    | some p =>
      have hmem := argmaxFirst_mem _ _ hm
      have hp := (mem_definedEv g p.1 p.2).mp hmem
      exact ⟨p.1, p.2, by simpa using hm, hp.2, hp.1⟩
  · intro rows r0 hr0 hnn hall
    have hvr : r0 ∈ rows.filter (fun r => r.offer.key.nonNull) :=
      List.mem_filter.mpr ⟨hr0, by simpa using hnn⟩
    have hk : r0.offer.key ∈ dedupFirst
        ((rows.filter (fun r => r.offer.key.nonNull)).map (fun r => r.offer.key)) := by
      rw [mem_dedupFirst]
      exact List.mem_map.mpr ⟨r0, hvr, rfl⟩
    have hnone : argmaxFirst (definedEv ((rows.filter (fun r => r.offer.key.nonNull)).filter
        (fun r2 => r2.offer.key = r0.offer.key))) = none := by
      rw [argmaxFirst_eq_none, definedEv_eq_nil]
      intro r2 hr2
      have h2 := List.mem_filter.mp hr2
      have h3 := List.mem_filter.mp h2.1
      exact hall r2 h3.1 (by simpa using h2.2)
    obtain ⟨e, he⟩ := collectBest_error _ _ _ hk hnone
    refine ⟨e, ?_⟩
    simp only [bestRows]
    exact he

theorem C2_undefined_lowest_witness :
    ∃ e, bestRows (annotate dsBad) = Except.error e :=
  C2_undefined_lowest.2.2 (annotate dsBad) rowBad
    (by with_unfolding_all decide)
    (by with_unfolding_all decide)
    (by with_unfolding_all decide)

/-- C1, counterexample.  dsNullTeam contains one valid offer whose
proposition key has a missing team component.  The claim demands exactly
one best row for that key; the best-offer groupby, which uses the default
dropna, instead drops the row, and the selector output is empty. -/
theorem C1_counterexample :
    annotate dsNullTeam ≠ [] ∧ bestRows (annotate dsNullTeam) = Except.ok [] := by
  constructor
  · with_unfolding_all decide
  · with_unfolding_all rfl

/-- C1, amended.  Whenever the best-offer selection completes (no group is
all-undefined, see C2), it emits exactly one row per distinct proposition
key that is present in the input and has no missing component; keys with
a missing field value are dropped by the selection groupby and yield no
row.  Each emitted row attains the maximum defined ev_pct of its group,
with ties broken by first occurrence in input order: every earlier group
row with defined ev_pct is strictly below it, every later one at most
equal. -/
theorem C1_best_offer_selector (rows : List Offer) (best : List ARow)
    (h : bestRows (annotate rows) = Except.ok best) :
    (∀ r ∈ best, r.offer.key.nonNull = true) ∧
    (∀ k : PropKey, k.nonNull = true →
      (((annotate rows).filter (fun r => r.offer.key = k)) ≠ [] ↔
        (best.filter (fun r => r.offer.key = k)).length = 1)) ∧
    (∀ r ∈ best, ∃ m l₁ l₂, r.ev_pct = some m ∧
      definedEv ((annotate rows).filter (fun r2 => r2.offer.key = r.offer.key))
        = l₁ ++ (m, r) :: l₂ ∧
      (∀ q ∈ l₁, q.1 < m) ∧ (∀ q ∈ l₂, q.1 ≤ m)) := by
  simp only [bestRows] at h
  have hf2 := collectBest_ok _ _ _ h
  have hnd : (dedupFirst (((annotate rows).filter
      (fun r => r.offer.key.nonNull)).map (fun r => r.offer.key))).Nodup :=
    nodup_dedupFirst _
  have hksnn : ∀ k ∈ dedupFirst (((annotate rows).filter
      (fun r => r.offer.key.nonNull)).map (fun r => r.offer.key)), k.nonNull = true := by
    intro k hk
    rw [mem_dedupFirst] at hk
    obtain ⟨r, hrv, rfl⟩ := List.mem_map.mp hk
    simpa using (List.mem_filter.mp hrv).2
  refine ⟨?_, ?_, ?_⟩
  · intro r hr
    obtain ⟨k, hk, hsel⟩ := forall₂_mem_right _ _ _ hf2 r hr
    have hmem := SelectedFor.mem _ _ _ hsel
    simpa using (List.mem_filter.mp hmem).2
  · intro k hknn
    constructor
    · intro hne
      obtain ⟨r, hrg⟩ := List.exists_mem_of_ne_nil _ hne
      have hrg2 := List.mem_filter.mp hrg
      have hrkey : r.offer.key = k := by simpa using hrg2.2
      have hrv : r ∈ (annotate rows).filter (fun r => r.offer.key.nonNull) :=
        List.mem_filter.mpr ⟨hrg2.1, by simp [hrkey, hknn]⟩
      have hkks : k ∈ dedupFirst (((annotate rows).filter
          (fun r => r.offer.key.nonNull)).map (fun r => r.offer.key)) := by
        rw [mem_dedupFirst]
        exact List.mem_map.mpr ⟨r, hrv, hrkey⟩
      exact forall₂_filter_length_one _ _ _ _ hf2 hnd hkks
    · intro hlen
      have hbne : best.filter (fun r => r.offer.key = k) ≠ [] := by
        intro hnil
        rw [hnil] at hlen
        simp at hlen
      obtain ⟨r, hrf⟩ := List.exists_mem_of_ne_nil _ hbne
      have hrf2 := List.mem_filter.mp hrf
      obtain ⟨k2, hk2, hsel⟩ := forall₂_mem_right _ _ _ hf2 r hrf2.1
      have hmem := SelectedFor.mem _ _ _ hsel
      have hrann : r ∈ annotate rows := (List.mem_filter.mp hmem).1
      apply List.ne_nil_of_mem (a := r)
      exact List.mem_filter.mpr ⟨hrann, hrf2.2⟩
  · intro r hr
    obtain ⟨k, hk, hsel⟩ := forall₂_mem_right _ _ _ hf2 r hr
    have hkey : r.offer.key = k := SelectedFor.key_eq _ _ _ hsel
    have hknn : k.nonNull = true := hksnn k hk
    obtain ⟨e, he⟩ := hsel
    rw [filter_nonNull_filter_key _ _ hknn] at he
    have hevr : r.ev_pct = some e :=
      ((mem_definedEv _ _ _).mp (argmaxFirst_mem _ _ he)).2
    obtain ⟨l₁, l₂, heq, h₁, h₂⟩ := argmaxFirst_split _ _ he
    rw [hkey]
    exact ⟨e, l₁, l₂, hevr, heq, h₁, h₂⟩

theorem C1_best_offer_selector_witness :
    (∀ r ∈ [row100], r.offer.key.nonNull = true) ∧
    (∀ k : PropKey, k.nonNull = true →
      (((annotate rows100).filter (fun r => r.offer.key = k)) ≠ [] ↔
        (([row100]).filter (fun r => r.offer.key = k)).length = 1)) ∧
    (∀ r ∈ [row100], ∃ m l₁ l₂, r.ev_pct = some m ∧
      definedEv ((annotate rows100).filter (fun r2 => r2.offer.key = r.offer.key))
        = l₁ ++ (m, r) :: l₂ ∧
      (∀ q ∈ l₁, q.1 < m) ∧ (∀ q ∈ l₂, q.1 ≤ m)) :=
  C1_best_offer_selector rows100 [row100] (by with_unfolding_all rfl)

end RunV53
